import Mathlib

set_option maxHeartbeats 1000000
set_option maxRecDepth 10000

/-!
Verification of the httprouter-rs dispatch core.

Part 1 embeds src/path.rs (the lexical path cleaner).  The byte string is
modelled at character level: the algorithm only compares bytes against the
ASCII bytes of the slash and the dot, and a multi-byte UTF-8 character
contains neither, so the character-level run mirrors the byte-level run.
The Rust while loop is modelled with an explicit iteration budget: every
iteration of the source loop that makes progress advances the read cursor r
by at least one, so length p + 1 iterations are enough for every terminating
run, and a run that exhausts the budget is one in which the source loop
failed to advance (the match arm for a dot with no recognized continuation
leaves r unchanged, repeating the same state forever).  The budget therefore
makes divergence of the source observable as the value none.
-/

namespace HttpRouter

/-- The fill byte used by Vec::resize(_, 0) in the source, as a character. -/
def cnul : Char := Char.ofNat 0

/-- Embeds fn buf_app (src/path.rs): lazily allocating write of c at index w.
If buf is still unallocated (empty) and the original string already has c at
index w, nothing happens; otherwise buf is materialized as in
buf.resize(s.len(), 0); buf[..w].copy_from_slice(&s[..w]) and then buf[w] = c. -/
def bufApp (buf s : List Char) (w : Nat) (c : Char) : List Char :=
  if buf = [] then
    if s.getD w cnul = c then buf
    else (s.take w ++ (List.replicate s.length cnul).drop w).set w c
  else buf.set w c

/-- Embeds the backtracking while loop of the dot-dot case in fn clean:
while w > 1 && arr[w] != the slash do w -= 1.  Structural recursion on w. -/
def backtrack (arr : List Char) : Nat → Nat
  | 0 => 0
  | w + 1 =>
    if 1 < w + 1 ∧ arr.getD (w + 1) cnul ≠ '/' then backtrack arr w
    else w + 1

/-- Embeds the inner copy loop of the real-path-element arm of fn clean:
while r < n && p[r] != the slash do buf_app; w += 1; r += 1.
The budget argument is instantiated with n - r at the call site, which is an
exact bound for this loop (each pass increases r by one and the loop cannot
run once r = n), so the budget never runs out before the loop condition
fails.  Returns the updated buffer, read cursor and write cursor. -/
def copyElem (p : List Char) (n : Nat) : Nat → Nat → Nat → List Char → List Char × Nat × Nat
  | 0, r, w, buf => (buf, r, w)
  | fuel + 1, r, w, buf =>
    if r < n ∧ p.getD r cnul ≠ '/' then
      copyElem p n fuel (r + 1) (w + 1) (bufApp buf p w (p.getD r cnul))
    else (buf, r, w)

/-- Embeds the main while-r-lt-n loop of fn clean (src/path.rs lines 38-85),
one budgeted step per source iteration.  The five inner cases are, in source
order: a slash; a lone dot ending the string; a dot-slash element; a dot-dot
element (with the backtracking loop, scanning p when buf is still lazy and
buf once allocated); and otherwise a real path element (separator slash when
w > 1, then the copy loop).  A dot followed by anything else (for example
the path element .x) matches the dot arm of the source match but none of its
three inner if branches, so the source loop body completes without changing
any state and the loop repeats forever; that step is embedded as a recursive
call on an unchanged state, so such a run consumes the budget and yields
none for every budget. -/
def cleanLoop (p : List Char) (n : Nat) : Nat → Nat → Nat → List Char → Bool → Option (List Char × Nat × Bool)
  | 0, _, _, _, _ => none
  | fuel + 1, r, w, buf, trailing =>
    if r < n then
      if p.getD r cnul = '/' then
        cleanLoop p n fuel (r + 1) w buf trailing
      else if p.getD r cnul = '.' then
        if r + 1 = n then
          cleanLoop p n fuel (r + 1) w buf true
        else if p.getD (r + 1) cnul = '/' then
          cleanLoop p n fuel (r + 2) w buf trailing
        else if p.getD (r + 1) cnul = '.' ∧ (r + 2 = n ∨ p.getD (r + 2) cnul = '/') then
          let w' := if 1 < w then backtrack (if buf = [] then p else buf) (w - 1) else w
          cleanLoop p n fuel (r + 3) w' buf trailing
        else
          cleanLoop p n fuel r w buf trailing
      else
        let buf1 := if 1 < w then bufApp buf p w '/' else buf
        let w1 := if 1 < w then w + 1 else w
        let res := copyElem p n (n - r) r w1 buf1
        cleanLoop p n fuel res.2.1 res.2.2 res.1 trailing
    else some (buf, w, trailing)

/-- Embeds fn clean (src/path.rs) with an explicit iteration budget for the
main loop: the empty-input guard, the initialization of the cursors and of
the lazily allocated buffer (for a relative path the buffer is materialized
up front as resize(n + 1, 0) followed by buf[0] = the slash), the trailing
flag n > 1 && p.ends_with(the slash), the main loop, the re-appended
trailing slash, and the final p[..w] or buf[..w]. -/
def cleanWithFuel (fuel : Nat) (p : List Char) : Option (List Char) :=
  if p = [] then some ['/']
  else
    let n := p.length
    let r := if p.getD 0 cnul = '/' then 1 else 0
    let buf : List Char := if p.getD 0 cnul = '/' then [] else '/' :: List.replicate n cnul
    let trailing : Bool := decide (1 < n) && decide (p.getD (n - 1) cnul = '/')
    match cleanLoop p n fuel r 1 buf trailing with
    | none => none
    | some (buf2, w, trailing2) =>
      let buf3 := if trailing2 = true ∧ 1 < w then bufApp buf2 p w '/' else buf2
      let w3 := if trailing2 = true ∧ 1 < w then w + 1 else w
      some (if buf3 = [] then p.take w3 else buf3.take w3)

/-- pub fn clean, with the budget length p + 1 that covers every terminating
run of the source loop (each productive iteration advances r by at least
one, so a run that has not finished after length p + 1 iterations has
repeated a state and never finishes). -/
def clean (p : List Char) : Option (List Char) :=
  cleanWithFuel (p.length + 1) p

/-!
Part 2 embeds src/router.rs.  The radix-tree matcher (the external matchit
crate) is out of the repository: a tree is modelled by its interface, the
two capabilities the router consumes, namely the exact lookup at a path
(which distinguishes a trailing-slash-only mismatch from a plain mismatch)
and the case-insensitive lookup of a cleaned path with a flag allowing
trailing-slash fixing.  Handlers are opaque values of a type parameter H;
dispatch never inspects them.  The HashMap of per-method trees is modelled
as an association list in some fixed iteration order, with lookup by key as
HashMap::get.  Router::serve takes the request method and the request path
(the source extracts both from the hyper request), and is Option-valued
because its fixed-path branch runs fn clean, whose loop can fail to
terminate; every return of the source is a some here.
-/

/-- The result of Node::at: a match carrying the handler and the extracted
parameters, or an error whose tsr() reports whether the path would have
matched with the trailing slash toggled. -/
inductive LookupResult (H : Type) where
  | ok (value : H) (params : List (String × String))
  | err (tsr : Bool)
deriving DecidableEq

/-- Reports whether a lookup result is Ok, as Result::is_ok. -/
def LookupResult.isOk {H : Type} : LookupResult H → Bool
  | .ok _ _ => true
  | .err _ => false

/-- The interface of one per-method matchit tree (consumed, not
reimplemented): Node::at and Node::path_ignore_case. -/
structure Tree (H : Type) where
  atPath : String → LookupResult H
  path_ignore_case : String → Bool → Option String

/-- The HTTP methods this development mentions (hyper::Method values). -/
inductive Method where
  | GET
  | HEAD
  | POST
  | PUT
  | DELETE
  | PATCH
  | OPTIONS
  | CONNECT
deriving DecidableEq

/-- Method::as_ref, the method name as a string. -/
def Method.as_ref : Method → String
  | .GET => "GET"
  | .HEAD => "HEAD"
  | .POST => "POST"
  | .PUT => "PUT"
  | .DELETE => "DELETE"
  | .PATCH => "PATCH"
  | .OPTIONS => "OPTIONS"
  | .CONNECT => "CONNECT"

/-- The Router struct (src/router.rs lines 272-281): the per-method trees
and the configuration read by serve. -/
structure Router (H : Type) where
  trees : List (Method × Tree H)
  redirect_trailing_slash : Bool
  redirect_fixed_path : Bool
  handle_method_not_allowed : Bool
  handle_options : Bool
  global_options : Option H
  not_found : Option H
  method_not_allowed : Option H

/-- HashMap::get on the per-method tree table. -/
def findTree {H : Type} (trees : List (Method × Tree H)) (m : Method) : Option (Tree H) :=
  (trees.find? (fun q => q.1 = m)).map Prod.snd

/-- Router::allowed (src/router.rs lines 492-525): for the path "*" every
registered method except OPTIONS; otherwise the registered methods other
than OPTIONS whose tree matches the path exactly, in table iteration order;
with "OPTIONS" pushed at the end when the list is non-empty. -/
def Router.allowed {H : Type} (r : Router H) (path : String) : List String :=
  let allowed :=
    if path = "*" then
      (((r.trees.map Prod.fst).filter (fun m => m ≠ Method.OPTIONS)).map Method.as_ref)
    else
      ((((r.trees.map Prod.fst).filter (fun m => m ≠ Method.OPTIONS)).filter
        (fun m => match findTree r.trees m with
          | some node => (node.atPath path).isOk
          | none => false)).map Method.as_ref)
  if allowed ≠ [] then allowed ++ [Method.OPTIONS.as_ref] else allowed

/-- The outcome representation ResponseFutKind (src/router.rs lines
724-730).  Boxed carries the handler whose future the wrapper polls (for a
matched route the source first attaches the extracted Params to the
request); the other four variants synthesize a response on first poll. -/
inductive ResponseFutKind (H : Type) where
  | Boxed (handler : H)
  | Redirect (path : String) (code : Nat)
  | MethodNotAllowed (allow : String)
  | Options (allow : String)
  | NotFound
deriving DecidableEq

/-- A synthesized hyper response: status code, headers, body. -/
structure Response where
  status : Nat
  headers : List (String × String)
  body : String
deriving DecidableEq

/-- ResponseFut::poll (src/router.rs lines 735-759) on the synthesized
variants: Redirect sets the Location header and the given status with an
empty body; NotFound is a bare 404; Options sets the Allow header with the
builder's default status 200; MethodNotAllowed sets the Allow header and
status 405.  The Boxed variant forwards the inner handler future and is not
synthesized here (none). -/
def ResponseFutKind.poll {H : Type} : ResponseFutKind H → Option Response
  | .Boxed _ => none
  | .Redirect path code => some ⟨code, [("location", path)], ""⟩
  | .NotFound => some ⟨404, [], ""⟩
  | .Options allowed => some ⟨200, [("allow", allowed)], ""⟩
  | .MethodNotAllowed allowed => some ⟨405, [("allow", allowed)], ""⟩

/-- The tail of Router::serve (src/router.rs lines 687-710): the automatic
OPTIONS reply, the 405 reply, and the not-found fallback, in source order. -/
def Router.serveTail {H : Type} (r : Router H) (method : Method) (path : String) : ResponseFutKind H :=
  if method = Method.OPTIONS ∧ r.handle_options = true then
    let allow := r.allowed path
    if allow ≠ [] then
      match r.global_options with
      | some handler => ResponseFutKind.Boxed handler
      | none => ResponseFutKind.Options (String.intercalate ", " allow)
    else
      match r.not_found with
      | some handler => ResponseFutKind.Boxed handler
      | none => ResponseFutKind.NotFound
  else if r.handle_method_not_allowed = true then
    let allow := r.allowed path
    if allow ≠ [] then
      match r.method_not_allowed with
      | some handler => ResponseFutKind.Boxed handler
      | none => ResponseFutKind.MethodNotAllowed (String.intercalate ", " allow)
    else
      match r.not_found with
      | some handler => ResponseFutKind.Boxed handler
      | none => ResponseFutKind.NotFound
  else
    match r.not_found with
    | some handler => ResponseFutKind.Boxed handler
    | none => ResponseFutKind.NotFound

/-- Router::serve (src/router.rs lines 641-711).  Looks the raw path up in
the method's tree; on a match returns the handler (Boxed).  On a mismatch,
unless the method is CONNECT or the path is the root, computes the redirect
status (301 for GET, 308 otherwise), tries the trailing-slash redirect
(when the mismatch is trailing-slash-only and the policy is on, toggling
the final slash: strip it when the path ends with a slash and is longer
than one byte, append it otherwise; the final slash is one byte, so the
byte slice path[..len - 1] is the string without its last character), then the fixed-path redirect (when the
policy is on: clean the path and ask the tree for a case-insensitive match,
passing redirect_trailing_slash as the fix-trailing-slash argument).
Otherwise falls through to the OPTIONS / 405 / not-found tail.  none models
the run in which fn clean never returns. -/
def Router.serve {H : Type} (r : Router H) (method : Method) (path : String) : Option (ResponseFutKind H) :=
  match findTree r.trees method with
  | some root =>
    match root.atPath path with
    | LookupResult.ok value _params => some (ResponseFutKind.Boxed value)
    | LookupResult.err tsr =>
      if method ≠ Method.CONNECT ∧ path ≠ "/" then
        let code : Nat := if method = Method.GET then 301 else 308
        if tsr = true ∧ r.redirect_trailing_slash = true then
          let newPath :=
            if 1 < path.length ∧ path.data.getLast? = some '/' then String.mk path.data.dropLast
            else path ++ "/"
          some (ResponseFutKind.Redirect newPath code)
        else if r.redirect_fixed_path = true then
          match clean path.data with
          | none => none
          | some cleaned =>
            match root.path_ignore_case (String.mk cleaned) r.redirect_trailing_slash with
            | some fixed_path => some (ResponseFutKind.Redirect fixed_path code)
            | none => some (r.serveTail method path)
        else some (r.serveTail method path)
      else some (r.serveTail method path)
  | none => some (r.serveTail method path)

/-- Router::default (src/router.rs lines 528-543): no routes, all four
policy flags on, no global-options and no method-not-allowed handler, and a
default not-found handler (the source installs a closure answering with
status 400; handlers are opaque here, so the closure is the argument). -/
def Router.default {H : Type} (default_not_found : H) : Router H :=
  ⟨[], true, true, true, true, none, some default_not_found, none⟩

/-- The routers reachable through the public builder API, starting from
Router::default: handle / get / post / ... only modify the tree table (the
insertion itself is the external matcher's; any table change is admitted,
which over-approximates the reachable set soundly); the four policy methods
set their flag to true; the three handler setters install a handler.  No
operation clears not_found or turns a flag off. -/
inductive Built {H : Type} : Router H → Prop where
  | default (h0 : H) : Built (Router.default h0)
  | handle (r : Router H) (tr : List (Method × Tree H)) : Built r →
      Built ⟨tr, r.redirect_trailing_slash, r.redirect_fixed_path,
             r.handle_method_not_allowed, r.handle_options,
             r.global_options, r.not_found, r.method_not_allowed⟩
  | redirect_trailing_slash (r : Router H) : Built r →
      Built ⟨r.trees, true, r.redirect_fixed_path,
             r.handle_method_not_allowed, r.handle_options,
             r.global_options, r.not_found, r.method_not_allowed⟩
  | redirect_fixed_path (r : Router H) : Built r →
      Built ⟨r.trees, r.redirect_trailing_slash, true,
             r.handle_method_not_allowed, r.handle_options,
             r.global_options, r.not_found, r.method_not_allowed⟩
  | handle_method_not_allowed (r : Router H) : Built r →
      Built ⟨r.trees, r.redirect_trailing_slash, r.redirect_fixed_path,
             true, r.handle_options,
             r.global_options, r.not_found, r.method_not_allowed⟩
  | handle_options (r : Router H) : Built r →
      Built ⟨r.trees, r.redirect_trailing_slash, r.redirect_fixed_path,
             r.handle_method_not_allowed, true,
             r.global_options, r.not_found, r.method_not_allowed⟩
  | global_options (r : Router H) (h : H) : Built r →
      Built ⟨r.trees, r.redirect_trailing_slash, r.redirect_fixed_path,
             r.handle_method_not_allowed, r.handle_options,
             some h, r.not_found, r.method_not_allowed⟩
  | not_found (r : Router H) (h : H) : Built r →
      Built ⟨r.trees, r.redirect_trailing_slash, r.redirect_fixed_path,
             r.handle_method_not_allowed, r.handle_options,
             r.global_options, some h, r.method_not_allowed⟩
  | method_not_allowed (r : Router H) (h : H) : Built r →
      Built ⟨r.trees, r.redirect_trailing_slash, r.redirect_fixed_path,
             r.handle_method_not_allowed, r.handle_options,
             r.global_options, r.not_found, some h⟩

/-- The allowed-methods computation as section 8 of the spec states it, for
every path: the set of registered methods (excluding OPTIONS) whose tree
matches the path exactly, in table iteration order, with OPTIONS appended
if and only if that set is non-empty.  Written from the spec's words, to be
compared with Router.allowed. -/
def Router.allowedSpec {H : Type} (r : Router H) (path : String) : List String :=
  let allowed :=
    ((((r.trees.map Prod.fst).filter (fun m => m ≠ Method.OPTIONS)).filter
      (fun m => match findTree r.trees m with
        | some node => (node.atPath path).isOk
        | none => false)).map Method.as_ref)
  if allowed ≠ [] then allowed ++ [Method.OPTIONS.as_ref] else allowed

/-- A tree holding exactly the route /home (used at concrete instances):
Node::at succeeds only at /home, and the trailing-slash hint is off
elsewhere because neither /home/ nor any other toggled path is a route. -/
def tHome : Tree Nat :=
  ⟨fun s => if s = "/home" then LookupResult.ok 1 [] else LookupResult.err false,
   fun _ _ => none⟩

/-- A tree holding exactly the route /FOO, with the case-insensitive
capability a matchit tree with that route has: the cleaned path /foo
corrects to /FOO, and /foo/ corrects to /FOO only when the lookup is
allowed to fix the trailing slash.  Node::at reports no trailing-slash-only
mismatch at /foo/ because /foo is not a route either. -/
def tFOO : Tree Nat :=
  ⟨fun s => if s = "/FOO" then LookupResult.ok 7 [] else LookupResult.err false,
   fun s fix =>
     if s = "/FOO" then some "/FOO"
     else if s = "/foo" then some "/FOO"
     else if s = "/foo/" ∧ fix = true then some "/FOO"
     else none⟩

/-- A tree holding exactly the route /foo: Node::at succeeds at /foo and
reports a trailing-slash-only mismatch at /foo/. -/
def tFoo2 : Tree Nat :=
  ⟨fun s =>
     if s = "/foo" then LookupResult.ok 3 []
     else if s = "/foo/" then LookupResult.err true
     else LookupResult.err false,
   fun _ _ => none⟩

/-- The router of the 405 scenario: GET and POST registered at /home,
nothing for PUT, every policy on, no custom fallback handlers beyond the
default not-found one (handler 0). -/
def r9 : Router Nat :=
  ⟨[(Method.GET, tHome), (Method.POST, tHome)],
   true, true, true, true, none, some 0, none⟩

/-- A router with the single GET route /FOO, fixed-path redirection on and
trailing-slash redirection on. -/
def rOn : Router Nat :=
  ⟨[(Method.GET, tFOO)], true, true, false, false, none, some 0, none⟩

/-- The same router as rOn with redirect_trailing_slash off and every other
field unchanged. -/
def rOff : Router Nat :=
  ⟨[(Method.GET, tFOO)], false, true, false, false, none, some 0, none⟩

/-- A router with the single GET route /foo and every policy on. -/
def rT : Router Nat :=
  ⟨[(Method.GET, tFoo2)], true, true, true, true, none, some 0, none⟩

/-!
Part 3: the apparatus for the invariants of fn clean.  The output written
so far is p[..w] while the buffer is lazy and buf[..w] once allocated.
-/

/-- The output prefix the cleaning loop has produced: p[..w] while the
buffer is unallocated, buf[..w] afterwards (the final lines of fn clean
return exactly this value). -/
def curOf (p buf : List Char) (w : Nat) : List Char :=
  if buf = [] then p.take w else buf.take w

/-- One when fn clean conceptually prepends a slash (a relative path gets a
buffer of length n + 1), zero for a rooted path (whose buffer, when
allocated, has length n). -/
def slack (p : List Char) : Nat :=
  if p.getD 0 cnul = '/' then 0 else 1

/-- No character right after a slash is a dot.  Together with a leading
slash this guarantees that every slash-separated segment is empty or starts
with a character other than the dot, so no segment is the dot-dot one. -/
def PairOk (l : List Char) : Prop :=
  ∀ i : Nat, i + 1 < l.length → l.getD i cnul = '/' → l.getD (i + 1) cnul ≠ '.'

/-- Splits a character list at every slash; the slash-separated segments of
a path, including empty ones. -/
def splitSlash : List Char → List (List Char)
  | [] => [[]]
  | c :: rest =>
    if c = '/' then [] :: splitSlash rest
    else
      match splitSlash rest with
      | [] => [[c]]
      | s :: ss => (c :: s) :: ss

/-- The loop invariant of the main loop of fn clean, at a loop head with
read cursor r, write cursor w, buffer buf and trailing flag tr. -/
structure CleanInv (p : List Char) (r w : Nat) (buf : List Char) (tr : Bool) : Prop where
  hw1 : 1 ≤ w
  hwn : w ≤ p.length + slack p
  hlazy : buf = [] → p.getD 0 cnul = '/'
  hbuflen : buf ≠ [] → buf.length = p.length + slack p
  hhead : (curOf p buf w).getD 0 cnul = '/'
  hpair : PairOk (curOf p buf w)
  hlen : (curOf p buf w).length = w
  hbound : w ≤ r + slack p
  hr1 : 1 ≤ r + slack p
  hboundeq : w = r + slack p →
    p.length ≤ r ∨ p.getD r cnul = '/' ∨ (w = 1 ∧ r + slack p = 1)
  htrail : tr = true →
    w + 1 ≤ p.length + slack p ∧ (p.getD (p.length - 1) cnul = '/' ∨ p.length ≤ r)

/-- What survives of the invariant when the loop returns (the read cursor
is gone from the result). -/
structure CleanOut (p : List Char) (w : Nat) (buf : List Char) (tr : Bool) : Prop where
  hw1 : 1 ≤ w
  hwn : w ≤ p.length + slack p
  hlazy : buf = [] → p.getD 0 cnul = '/'
  hbuflen : buf ≠ [] → buf.length = p.length + slack p
  hhead : (curOf p buf w).getD 0 cnul = '/'
  hpair : PairOk (curOf p buf w)
  hlen : (curOf p buf w).length = w
  htrail : tr = true → w + 1 ≤ p.length + slack p

/-!
Theorems.  Helper lemmas first, then one theorem per claim (with a witness
or counterexample where the claim calls for one).
-/

theorem serveTail_ne_redirect {H : Type} (r : Router H) (m : Method) (path p : String) (c : Nat) :
    r.serveTail m path ≠ ResponseFutKind.Redirect p c := by
  unfold Router.serveTail
  split_ifs <;> (repeat' split) <;> simp [ite_eq_iff]

theorem serveTail_ne_notFound {H : Type} (r : Router H) (hnf : r.not_found ≠ none)
    (m : Method) (path : String) : r.serveTail m path ≠ ResponseFutKind.NotFound := by
  unfold Router.serveTail
  rcases h : r.not_found with _ | handler
  · exact absurd h hnf
  · split_ifs <;> simp only [h] <;> (repeat' split) <;> simp [ite_eq_iff]

theorem serve_ne_notFound {H : Type} (r : Router H) (hnf : r.not_found ≠ none)
    (m : Method) (path : String) : r.serve m path ≠ some ResponseFutKind.NotFound := by
  have hst := serveTail_ne_notFound r hnf m path
  unfold Router.serve
  (repeat' split) <;> simp_all

/-- The err branch of Router::serve, written out: when the tree for the
method exists and Node::at reports a mismatch, serve is the redirect block
followed by the fallback tail. -/
theorem serve_err_case {H : Type} (r : Router H) (root : Tree H) (m : Method)
    (path : String) (tsr : Bool)
    (hroot : findTree r.trees m = some root)
    (hat : root.atPath path = LookupResult.err tsr) :
    r.serve m path =
      (if m ≠ Method.CONNECT ∧ path ≠ "/" then
        if tsr = true ∧ r.redirect_trailing_slash = true then
          some (ResponseFutKind.Redirect
            (if 1 < path.length ∧ path.data.getLast? = some '/' then String.mk path.data.dropLast
             else path ++ "/")
            (if m = Method.GET then 301 else 308))
        else if r.redirect_fixed_path = true then
          match clean path.data with
          | none => none
          | some cleaned =>
            match root.path_ignore_case (String.mk cleaned) r.redirect_trailing_slash with
            | some fixed_path => some (ResponseFutKind.Redirect fixed_path
                (if m = Method.GET then 301 else 308))
            | none => some (r.serveTail m path)
        else some (r.serveTail m path)
      else some (r.serveTail m path)) := by
  unfold Router.serve
  simp only [hroot, hat]

/-- C8: the eight concrete values of fn clean that the spec fixes, computed
on the embedding. -/
theorem c8_clean_concrete_values :
    clean "".data = some "/".data ∧
    clean ".".data = some "/".data ∧
    clean "..".data = some "/".data ∧
    clean "//".data = some "/".data ∧
    clean "a/".data = some "/a/".data ∧
    clean "/a/b/../c".data = some "/a/c".data ∧
    clean "/a/../../b".data = some "/b".data ∧
    clean "//abc//".data = some "/abc/".data := by
  decide

theorem cleanLoop_stuck_step (p : List Char) (n fuel r w : Nat) (buf : List Char) (tr : Bool)
    (hr : r < n) (h2 : p.getD r cnul = '.') (h3 : r + 1 ≠ n)
    (h4 : p.getD (r + 1) cnul ≠ '/')
    (h5 : ¬(p.getD (r + 1) cnul = '.' ∧ (r + 2 = n ∨ p.getD (r + 2) cnul = '/'))) :
    cleanLoop p n (fuel + 1) r w buf tr = cleanLoop p n fuel r w buf tr := by
  have h1 : ¬ p.getD r cnul = '/' := by rw [h2]; decide
  rw [cleanLoop]
  simp only [hr, if_pos, h1, if_neg, h2, if_pos, h3, h4, h5]
  simp [hr, h1, h2, h3, h4, h5]

/-- C1: on the path whose second segment is .x, the main loop of fn clean
never advances past the dot (the dot arm of the source match has no branch
for a segment that merely starts with a dot), so clean returns no value for
any iteration budget: the source loop runs forever and the idempotence
equation has no value at this input. -/
theorem c1_clean_diverges_on_dot_prefixed_segment :
    ∀ fuel : Nat, cleanWithFuel fuel ("/.x".data) = none := by
  have key : ∀ fuel : Nat, cleanLoop ("/.x".data) 3 fuel 1 1 [] false = none := by
    intro fuel
    induction fuel with
    | zero => rfl
    | succ f ih =>
      rw [cleanLoop_stuck_step "/.x".data 3 f 1 1 [] false (by decide) (by decide)
        (by decide) (by decide) (by decide)]
      exact ih
  intro fuel
  show (match cleanLoop ("/.x".data) 3 fuel 1 1 [] false with
    | none => none
    | some (buf2, w, trailing2) =>
      let buf3 := if trailing2 = true ∧ 1 < w then bufApp buf2 ("/.x".data) w '/' else buf2
      let w3 := if trailing2 = true ∧ 1 < w then w + 1 else w
      some (if buf3 = [] then ("/.x".data).take w3 else buf3.take w3)) = none
  rw [key fuel]

/-- C2: every redirect outcome serve produces carries the status 301 when
the method is GET and 308 otherwise, and polling it synthesizes a response
with that status, a Location header equal to the redirect path, and an
empty body. -/
theorem c2_redirect_status_and_response {H : Type} (r : Router H) (m : Method)
    (path p : String) (code : Nat)
    (h : r.serve m path = some (ResponseFutKind.Redirect p code)) :
    code = (if m = Method.GET then 301 else 308) ∧
    (ResponseFutKind.Redirect p code : ResponseFutKind H).poll =
      some ⟨code, [("location", p)], ""⟩ := by
  refine ⟨?_, rfl⟩
  have hst := serveTail_ne_redirect r m path p code
  unfold Router.serve at h
  (repeat' split at h) <;> simp_all

/-- Witness for C2 at a concrete router: the route /foo exists for GET, the
request GET /foo/ produces the trailing-slash redirect with status 301. -/
theorem c2_redirect_status_and_response_witness :
    301 = (if Method.GET = Method.GET then 301 else 308) ∧
    (ResponseFutKind.Redirect "/foo" 301 : ResponseFutKind Nat).poll =
      some ⟨301, [("location", "/foo")], ""⟩ :=
  c2_redirect_status_and_response rT Method.GET "/foo/" "/foo" 301 (by decide)

/-- C5: when the tree reports a trailing-slash-only mismatch, the policy is
on, the method is not CONNECT and the path is not the root, serve redirects
to the path with the final slash stripped (when present and the path is
longer than one) or appended (otherwise); and for a CONNECT request or the
root path serve never produces any redirect outcome. -/
theorem c5_trailing_slash_redirect_and_root_connect_shortcircuit {H : Type}
    (r : Router H) (root : Tree H) (m : Method) (path : String)
    (hroot : findTree r.trees m = some root)
    (hat : root.atPath path = LookupResult.err true)
    (hrts : r.redirect_trailing_slash = true)
    (hm : m ≠ Method.CONNECT) (hp : path ≠ "/") :
    r.serve m path = some (ResponseFutKind.Redirect
      (if 1 < path.length ∧ path.data.getLast? = some '/' then String.mk path.data.dropLast
       else path ++ "/")
      (if m = Method.GET then 301 else 308)) ∧
    (∀ (m2 : Method) (path2 : String), (m2 = Method.CONNECT ∨ path2 = "/") →
      ∀ (p2 : String) (c2 : Nat),
        r.serve m2 path2 ≠ some (ResponseFutKind.Redirect p2 c2)) := by
  constructor
  · rw [serve_err_case r root m path true hroot hat, if_pos ⟨hm, hp⟩, if_pos ⟨rfl, hrts⟩]
  · intro m2 path2 hcase p2 c2
    have hst := serveTail_ne_redirect r m2 path2 p2 c2
    have hnot : ¬ (m2 ≠ Method.CONNECT ∧ path2 ≠ "/") := by
      rcases hcase with h | h
      · exact fun hc => hc.1 h
      · exact fun hc => hc.2 h
    unfold Router.serve
    (repeat' split) <;> simp_all

/-- Witness for C5: at the concrete router with the single GET route /foo,
the request GET /foo/ is redirected to /foo, and the same router never
redirects a CONNECT request. -/
theorem c5_trailing_slash_redirect_witness :
    rT.serve Method.GET "/foo/" = some (ResponseFutKind.Redirect
      (if 1 < ("/foo/" : String).length ∧ ("/foo/" : String).data.getLast? = some '/'
        then String.mk ("/foo/" : String).data.dropLast else "/foo/" ++ "/")
      (if Method.GET = Method.GET then 301 else 308)) ∧
    (∀ (m2 : Method) (path2 : String), (m2 = Method.CONNECT ∨ path2 = "/") →
      ∀ (p2 : String) (c2 : Nat),
        rT.serve m2 path2 ≠ some (ResponseFutKind.Redirect p2 c2)) :=
  c5_trailing_slash_redirect_and_root_connect_shortcircuit rT tFoo2 Method.GET "/foo/"
    rfl (by decide) rfl (by decide) (by decide)

/-- Counterexample for C3: at the path consisting of the single asterisk,
Router::allowed returns every registered method (plus OPTIONS) without
asking any tree, while the spec formula (methods whose tree matches the
path exactly) yields the empty list: at the router with GET and POST
registered at /home the two disagree. -/
theorem c3_allowed_star_counterexample :
    r9.allowed "*" ≠ r9.allowedSpec "*" ∧
    r9.allowed "*" = ["GET", "POST", "OPTIONS"] ∧
    r9.allowedSpec "*" = [] := by
  decide

/-- C3 amended: at every path other than the asterisk, Router::allowed is
exactly the spec formula: the registered methods (excluding OPTIONS) whose
tree matches the path exactly, with OPTIONS appended iff non-empty. -/
theorem c3_allowed_eq_spec_off_star {H : Type} (r : Router H) (path : String)
    (hp : path ≠ "*") : r.allowed path = r.allowedSpec path := by
  unfold Router.allowed Router.allowedSpec
  rw [if_neg hp]

/-- Witness for the amended C3: with GET and POST registered at /home and
nothing for PUT, allowed agrees with the spec formula at /home and equals
GET, POST, OPTIONS (so it contains GET, POST and OPTIONS and not PUT), and
allowed of an unregistered path is empty. -/
theorem c3_allowed_eq_spec_off_star_witness :
    r9.allowed "/home" = r9.allowedSpec "/home" ∧
    r9.allowed "/home" = ["GET", "POST", "OPTIONS"] ∧
    r9.allowed "/unknown" = [] :=
  ⟨c3_allowed_eq_spec_off_star r9 "/home" (by decide), by decide, by decide⟩

/-- Counterexample for C4: rOn and rOff agree on every field except
redirect_trailing_slash (both have redirect_fixed_path on), the request
GET /foo/ reaches fixed-path recovery under both configurations (the tree
reports no trailing-slash-only mismatch there), yet with the flag on the
case-insensitive lookup fixes the path and serve redirects to /FOO, while
with the flag off the lookup (called with the flag as its
allow-trailing-slash-fix argument) finds nothing and serve falls through to
the not-found handler. -/
theorem c4_fixed_path_depends_on_trailing_slash_flag :
    rOff = ⟨rOn.trees, false, rOn.redirect_fixed_path, rOn.handle_method_not_allowed,
            rOn.handle_options, rOn.global_options, rOn.not_found, rOn.method_not_allowed⟩ ∧
    rOn.redirect_trailing_slash = true ∧
    rOff.redirect_trailing_slash = false ∧
    rOn.redirect_fixed_path = true ∧
    rOff.redirect_fixed_path = true ∧
    tFOO.atPath "/foo/" = LookupResult.err false ∧
    rOn.serve Method.GET "/foo/" = some (ResponseFutKind.Redirect "/FOO" 301) ∧
    rOff.serve Method.GET "/foo/" = some (ResponseFutKind.Boxed 0) :=
  ⟨rfl, rfl, rfl, rfl, rfl, by decide, by decide, by decide⟩

/-- C4 amended: a request that reaches fixed-path recovery is answered by
the result of path_ignore_case applied to the cleaned path and to
redirect_trailing_slash (the flag is the lookup's allow-trailing-slash-fix
argument), so the fixed-path outcome coincides for the two flag values
exactly when that lookup does. -/
theorem c4_fixed_path_recovery_characterization {H : Type} (r : Router H)
    (root : Tree H) (m : Method) (path : String) (tsr : Bool)
    (hroot : findTree r.trees m = some root)
    (hat : root.atPath path = LookupResult.err tsr)
    (hm : m ≠ Method.CONNECT) (hp : path ≠ "/")
    (hnt : ¬ (tsr = true ∧ r.redirect_trailing_slash = true))
    (hrfp : r.redirect_fixed_path = true) :
    r.serve m path =
      (match clean path.data with
       | none => none
       | some cleaned =>
         match root.path_ignore_case (String.mk cleaned) r.redirect_trailing_slash with
         | some fixed_path => some (ResponseFutKind.Redirect fixed_path
             (if m = Method.GET then 301 else 308))
         | none => some (r.serveTail m path)) := by
  rw [serve_err_case r root m path tsr hroot hat, if_pos ⟨hm, hp⟩, if_neg hnt, if_pos hrfp]

/-- Witness for the amended C4: the characterization applied to rOn at
GET /foo/ yields the /FOO redirect that the lookup produces. -/
theorem c4_fixed_path_recovery_characterization_witness :
    rOn.serve Method.GET "/foo/" = some (ResponseFutKind.Redirect "/FOO" 301) := by
  have h := c4_fixed_path_recovery_characterization rOn tFOO Method.GET "/foo/" false
    rfl (by decide) (by decide) (by decide) (by decide) rfl
  rw [h]
  decide

/-- C9: with GET and POST registered at /home, nothing for PUT,
handle_method_not_allowed on and no custom 405 handler, the request
PUT /home yields MethodNotAllowed with the allowed list GET, POST, OPTIONS
joined by a comma and a space, and polling it synthesizes status 405 with
that Allow header and an empty body. -/
theorem c9_put_home_method_not_allowed :
    r9.handle_method_not_allowed = true ∧
    r9.method_not_allowed = none ∧
    r9.allowed "/home" = ["GET", "POST", "OPTIONS"] ∧
    r9.serve Method.PUT "/home" =
      some (ResponseFutKind.MethodNotAllowed (String.intercalate ", " ["GET", "POST", "OPTIONS"])) ∧
    (ResponseFutKind.MethodNotAllowed (String.intercalate ", " ["GET", "POST", "OPTIONS"])
        : ResponseFutKind Nat).poll =
      some ⟨405, [("allow", "GET, POST, OPTIONS")], ""⟩ := by
  refine ⟨rfl, rfl, by decide, ?_, by decide⟩
  decide

/-- C10: every router reachable from Router::default through the public
builder calls has the four policy flags on and a not-found handler
installed, and serve on such a router never produces the bare NotFound
outcome. -/
theorem c10_built_router_invariant {H : Type} (r : Router H) (hb : Built r) :
    (r.redirect_trailing_slash = true ∧ r.redirect_fixed_path = true ∧
     r.handle_method_not_allowed = true ∧ r.handle_options = true) ∧
    r.not_found ≠ none ∧
    (∀ (m : Method) (path : String), r.serve m path ≠ some ResponseFutKind.NotFound) := by
  have core : (r.redirect_trailing_slash = true ∧ r.redirect_fixed_path = true ∧
      r.handle_method_not_allowed = true ∧ r.handle_options = true) ∧
      r.not_found ≠ none := by
    induction hb with
    | default h0 => exact ⟨⟨rfl, rfl, rfl, rfl⟩, by simp [Router.default]⟩
    | handle r tr _ ih => exact ih
    | redirect_trailing_slash r _ ih => exact ⟨⟨rfl, ih.1.2.1, ih.1.2.2.1, ih.1.2.2.2⟩, ih.2⟩
    | redirect_fixed_path r _ ih => exact ⟨⟨ih.1.1, rfl, ih.1.2.2.1, ih.1.2.2.2⟩, ih.2⟩
    | handle_method_not_allowed r _ ih => exact ⟨⟨ih.1.1, ih.1.2.1, rfl, ih.1.2.2.2⟩, ih.2⟩
    | handle_options r _ ih => exact ⟨⟨ih.1.1, ih.1.2.1, ih.1.2.2.1, rfl⟩, ih.2⟩
    | global_options r h _ ih => exact ih
    | not_found r h _ ih => exact ⟨ih.1, by simp⟩
    | method_not_allowed r h _ ih => exact ih
  exact ⟨core.1, core.2, fun m path => serve_ne_notFound r core.2 m path⟩

/-- Witness for C10: the invariant at Router::default itself. -/
theorem c10_built_router_invariant_witness :
    ((Router.default (0 : Nat)).redirect_trailing_slash = true ∧
     (Router.default (0 : Nat)).redirect_fixed_path = true ∧
     (Router.default (0 : Nat)).handle_method_not_allowed = true ∧
     (Router.default (0 : Nat)).handle_options = true) ∧
    (Router.default (0 : Nat)).not_found ≠ none ∧
    (∀ (m : Method) (path : String),
      (Router.default (0 : Nat)).serve m path ≠ some ResponseFutKind.NotFound) :=
  c10_built_router_invariant (Router.default 0) (Built.default 0)

/-! Support lemmas for the invariants of fn clean. -/

theorem sp_getD_take (d : Char) : ∀ (l : List Char) (m i : Nat), i < m →
    (l.take m).getD i d = l.getD i d := by
  intro l
  induction l with
  | nil => intro m i _; simp
  | cons c rest ih =>
    intro m i him
    cases m with
    | zero => omega
    | succ m =>
      cases i with
      | zero => simp
      | succ i => simpa using ih m i (by omega)

theorem sp_getD_append (d : Char) : ∀ (l1 l2 : List Char) (i : Nat), i < l1.length →
    (l1 ++ l2).getD i d = l1.getD i d := by
  intro l1
  induction l1 with
  | nil => intro l2 i h; simp at h
  | cons c rest ih =>
    intro l2 i h
    cases i with
    | zero => simp
    | succ i => simpa using ih l2 i (by simpa using h)

theorem sp_getD_append_right (d : Char) : ∀ (l1 l2 : List Char) (i : Nat), l1.length ≤ i →
    (l1 ++ l2).getD i d = l2.getD (i - l1.length) d := by
  intro l1
  induction l1 with
  | nil => intro l2 i _; simp
  | cons c rest ih =>
    intro l2 i h
    cases i with
    | zero => simp at h
    | succ i => simpa using ih l2 i (by simpa using h)

theorem sp_getD_mem (d : Char) : ∀ (l : List Char) (i : Nat), i < l.length → l.getD i d ∈ l := by
  intro l
  induction l with
  | nil => intro i h; simp at h
  | cons c rest ih =>
    intro i h
    cases i with
    | zero => simp
    | succ i =>
      simp only [List.getD_cons_succ]
      exact List.mem_cons_of_mem c (ih i (by simpa using h))

theorem sp_take_succ_getD (d : Char) : ∀ (l : List Char) (w : Nat), w < l.length →
    l.take (w + 1) = l.take w ++ [l.getD w d] := by
  intro l
  induction l with
  | nil => intro w h; simp at h
  | cons c rest ih =>
    intro w h
    cases w with
    | zero => simp
    | succ w =>
      simp only [List.take_succ_cons, List.getD_cons_succ, List.cons_append]
      rw [ih w (by simpa using h)]

theorem sp_set_take_succ (c : Char) : ∀ (l : List Char) (w : Nat), w < l.length →
    (l.set w c).take (w + 1) = l.take w ++ [c] := by
  intro l
  induction l with
  | nil => intro w h; simp at h
  | cons a rest ih =>
    intro w h
    cases w with
    | zero => simp
    | succ w =>
      simp only [List.set_cons_succ, List.take_succ_cons, List.cons_append]
      rw [ih w (by simpa using h)]

theorem sp_take_append_left : ∀ (l1 l2 : List Char) (m : Nat), m ≤ l1.length →
    (l1 ++ l2).take m = l1.take m := by
  intro l1
  induction l1 with
  | nil => intro l2 m h; simp at h; simp [h]
  | cons c rest ih =>
    intro l2 m h
    cases m with
    | zero => simp
    | succ m =>
      simp only [List.cons_append, List.take_succ_cons]
      rw [ih l2 m (by simpa using h)]

theorem sp_pairOk_take (l : List Char) (m : Nat) (h : PairOk l) : PairOk (l.take m) := by
  intro i hlt hsl
  have hlen : (l.take m).length = min m l.length := List.length_take m l
  have hi1 : i + 1 < m := by omega
  have hi1L : i + 1 < l.length := by omega
  rw [sp_getD_take cnul l m (i + 1) hi1]
  rw [sp_getD_take cnul l m i (by omega)] at hsl
  exact h i hi1L hsl

theorem sp_pairOk_append_char (l : List Char) (c : Char) (h : PairOk l)
    (hlast : l.getD (l.length - 1) cnul = '/' → c ≠ '.') : PairOk (l ++ [c]) := by
  intro i hlt hsl
  simp only [List.length_append, List.length_cons, List.length_nil] at hlt
  by_cases hi : i + 1 < l.length
  · rw [sp_getD_append cnul l [c] (i + 1) hi]
    rw [sp_getD_append cnul l [c] i (by omega)] at hsl
    exact h i hi hsl
  · have hieq : i + 1 = l.length := by omega
    have hi0 : i < l.length := by omega
    rw [sp_getD_append cnul l [c] i hi0] at hsl
    rw [sp_getD_append_right cnul l [c] (i + 1) (by omega)]
    have : i + 1 - l.length = 0 := by omega
    rw [this]
    simp only [List.getD_cons_zero]
    apply hlast
    have : l.length - 1 = i := by omega
    rw [this]
    exact hsl

theorem sp_pairOk_append_seg (l seg : List Char) (h : PairOk l)
    (hnoslash : ∀ c ∈ seg, c ≠ '/')
    (hhd : seg ≠ [] → seg.getD 0 cnul ≠ '.') : PairOk (l ++ seg) := by
  intro i hlt hsl
  simp only [List.length_append] at hlt
  by_cases hi1 : i + 1 < l.length
  · rw [sp_getD_append cnul l seg (i + 1) hi1]
    rw [sp_getD_append cnul l seg i (by omega)] at hsl
    exact h i hi1 hsl
  · by_cases hi : i < l.length
    · have hieq : i + 1 = l.length := by omega
      rw [sp_getD_append_right cnul l seg (i + 1) (by omega)]
      have hz : i + 1 - l.length = 0 := by omega
      rw [hz]
      apply hhd
      intro hnil
      rw [hnil] at hlt
      simp at hlt
      omega
    · have hge : l.length ≤ i := by omega
      rw [sp_getD_append_right cnul l seg i hge] at hsl
      have hmem : seg.getD (i - l.length) cnul ∈ seg := sp_getD_mem cnul seg (i - l.length) (by omega)
      exact absurd hsl (hnoslash _ hmem)

theorem sp_backtrack_le (arr : List Char) : ∀ x : Nat, backtrack arr x ≤ x := by
  intro x
  induction x with
  | zero => simp [backtrack]
  | succ w ih =>
    rw [backtrack]
    split
    · omega
    · omega

theorem sp_backtrack_pos (arr : List Char) : ∀ x : Nat, 1 ≤ x → 1 ≤ backtrack arr x := by
  intro x
  induction x with
  | zero => omega
  | succ w ih =>
    intro _
    rw [backtrack]
    split
    · rename_i hcond
      rcases Nat.eq_zero_or_pos w with hw | hw
      · subst hw; omega
      · exact ih hw
    · omega

theorem sp_splitSlash_ne_nil : ∀ l : List Char, splitSlash l ≠ [] := by
  intro l
  cases l with
  | nil => simp [splitSlash]
  | cons c rest =>
    rw [splitSlash]
    split
    · simp
    · split <;> simp

theorem sp_bufApp_spec (buf p : List Char) (w : Nat) (c : Char)
    (hcap : w < (if buf = [] then p.length else buf.length)) :
    curOf p (bufApp buf p w c) (w + 1) = curOf p buf w ++ [c] ∧
    (bufApp buf p w c = [] → buf = []) ∧
    (bufApp buf p w c ≠ [] →
      (bufApp buf p w c).length = (if buf = [] then p.length else buf.length)) := by
  by_cases hb : buf = []
  · subst hb
    simp only [if_pos] at hcap
    by_cases heq : p.getD w cnul = c
    · have h1 : bufApp [] p w c = [] := by
        rw [bufApp, if_pos (show ([] : List Char) = [] from rfl), if_pos heq]
      refine ⟨?_, fun _ => rfl, fun hcontra => absurd h1 hcontra⟩
      rw [h1]
      simp only [curOf, if_pos]
      rw [sp_take_succ_getD cnul p w hcap, heq]
    · have h1 : bufApp [] p w c =
          (p.take w ++ (List.replicate p.length cnul).drop w).set w c := by
        rw [bufApp, if_pos (show ([] : List Char) = [] from rfl), if_neg heq]
      have hbaselen : (p.take w ++ (List.replicate p.length cnul).drop w).length = p.length := by
        simp only [List.length_append, List.length_take, List.length_drop,
          List.length_replicate]
        omega
      have hsetlen : ((p.take w ++ (List.replicate p.length cnul).drop w).set w c).length
          = p.length := by
        rw [List.length_set]; exact hbaselen
      have hne : (p.take w ++ (List.replicate p.length cnul).drop w).set w c ≠ [] := by
        intro hnil
        rw [hnil] at hsetlen
        simp at hsetlen
        omega
      rw [h1]
      refine ⟨?_, fun h => absurd h hne, fun _ => by simp only [if_pos]; exact hsetlen⟩
      simp only [curOf, if_pos, if_neg hne]
      rw [sp_set_take_succ c _ w (by omega)]
      congr 1
      rw [sp_take_append_left (p.take w) _ w (by simp; omega)]
      rw [List.take_take]
      simp
  · simp only [if_neg hb] at hcap
    have h1 : bufApp buf p w c = buf.set w c := by rw [bufApp]; simp [hb]
    have hsetlen : (buf.set w c).length = buf.length := List.length_set buf w c
    have hne : buf.set w c ≠ [] := by
      intro hnil
      rw [hnil] at hsetlen
      simp at hsetlen
      omega
    rw [h1]
    refine ⟨?_, fun h => absurd h hne, fun _ => by simp only [if_neg hb]; exact hsetlen⟩
    simp only [curOf, if_neg hb, if_neg hne]
    exact sp_set_take_succ c buf w hcap

theorem sp_splitSlash_cons_head (l : List Char) :
    ∃ s0 ss, splitSlash l = s0 :: ss := by
  cases h : splitSlash l with
  | nil => exact absurd h (sp_splitSlash_ne_nil l)
  | cons s0 ss => exact ⟨s0, ss, rfl⟩

theorem sp_splitSlash_struct : ∀ l : List Char,
    (∀ s, (splitSlash l).head? = some s →
      s = [] ∨ (s ≠ [] ∧ s.getD 0 cnul = l.getD 0 cnul)) ∧
    (∀ s, s ∈ (splitSlash l).tail → s ≠ [] →
      ∃ i, 1 ≤ i ∧ i < l.length ∧ l.getD (i - 1) cnul = '/' ∧
        s.getD 0 cnul = l.getD i cnul) := by
  intro l
  induction l with
  | nil =>
    constructor
    · intro s hs
      rw [splitSlash] at hs
      simp only [List.head?_cons, Option.some.injEq] at hs
      exact Or.inl hs.symm
    · intro s hs
      rw [splitSlash] at hs
      simp at hs
  | cons c rest ih =>
    by_cases hc : c = '/'
    · rw [splitSlash, if_pos hc]
      constructor
      · intro s hs
        simp only [List.head?_cons, Option.some.injEq] at hs
        exact Or.inl hs.symm
      · intro s hs hne
        simp only [List.tail_cons] at hs
        obtain ⟨s0, ss, hsplit⟩ := sp_splitSlash_cons_head rest
        rw [hsplit] at hs
        rcases List.mem_cons.mp hs with heq | htail
        · have hrestne : rest ≠ [] := by
            intro hr
            rw [hr, splitSlash] at hsplit
            have : s0 = [] := by
              have := hsplit
              simp at this
              exact this.1
            rw [heq, this] at hne
            exact hne rfl
          have hh := (ih.1) s0 (by rw [hsplit]; rfl)
          rcases hh with h0 | ⟨_, h0⟩
          · rw [heq, h0] at hne; exact absurd rfl hne
          · refine ⟨1, le_refl 1, ?_, ?_, ?_⟩
            · have : 1 ≤ rest.length := by
                cases rest with
                | nil => exact absurd rfl hrestne
                | cons a b => simp
              simp only [List.length_cons]
              omega
            · simpa using hc
            · rw [heq]
              simpa using h0
        · have hht := ih.2 s (by rw [hsplit]; exact htail) hne
          obtain ⟨i, hi1, hilen, hslash, hhd⟩ := hht
          obtain ⟨j, rfl⟩ : ∃ j, i = j + 1 := ⟨i - 1, by omega⟩
          refine ⟨j + 2, by omega, ?_, ?_, ?_⟩
          · simp only [List.length_cons]; omega
          · have : j + 2 - 1 = j + 1 := by omega
            rw [this]
            simp only [List.getD_cons_succ]
            simpa using hslash
          · simp only [List.getD_cons_succ]
            exact hhd
    · rw [splitSlash, if_neg hc]
      obtain ⟨s0, ss, hsplit⟩ := sp_splitSlash_cons_head rest
      rw [hsplit]
      constructor
      · intro s hs
        simp only [List.head?_cons, Option.some.injEq] at hs
        right
        rw [← hs]
        exact ⟨by simp, by simp⟩
      · intro s hs hne
        simp only [List.tail_cons] at hs
        have hht := ih.2 s (by rw [hsplit]; simpa using hs) hne
        obtain ⟨i, hi1, hilen, hslash, hhd⟩ := hht
        obtain ⟨j, rfl⟩ : ∃ j, i = j + 1 := ⟨i - 1, by omega⟩
        refine ⟨j + 2, by omega, ?_, ?_, ?_⟩
        · simp only [List.length_cons]; omega
        · have : j + 2 - 1 = j + 1 := by omega
          rw [this]
          simp only [List.getD_cons_succ]
          simpa using hslash
        · simp only [List.getD_cons_succ]
          exact hhd

theorem sp_no_dotdot_segment (l : List Char) (hhead : l.getD 0 cnul = '/')
    (hpair : PairOk l) : ['.', '.'] ∉ splitSlash l := by
  intro hmem
  obtain ⟨s0, ss, hsplit⟩ := sp_splitSlash_cons_head l
  rw [hsplit] at hmem
  rcases List.mem_cons.mp hmem with heq | htail
  · have hh := (sp_splitSlash_struct l).1 s0 (by rw [hsplit]; rfl)
    rcases hh with h0 | ⟨_, h0⟩
    · rw [h0] at heq; simp at heq
    · rw [← heq] at h0
      rw [hhead] at h0
      simp at h0
  · have hht := (sp_splitSlash_struct l).2 (['.', '.']) (by rw [hsplit]; simpa using htail)
      (by simp)
    obtain ⟨i, hi1, hilen, hslash, hhd⟩ := hht
    have hji : i - 1 + 1 = i := by omega
    have hp := hpair (i - 1) (by omega) hslash
    rw [hji] at hp
    have : l.getD i cnul = '.' := by
      rw [← hhd]; simp
    exact hp this

theorem sp_copyElem_spec (p : List Char) :
    ∀ (fuel : Nat), ∀ (r w : Nat) (buf : List Char),
    p.length - r ≤ fuel → r ≤ p.length → 1 ≤ w →
    w + (p.length - r) ≤ p.length + slack p →
    (curOf p buf w).length = w →
    PairOk (curOf p buf w) →
    (p.getD r cnul ≠ '.' ∨ (curOf p buf w).getD (w - 1) cnul ≠ '/') →
    (buf = [] → p.getD 0 cnul = '/') →
    (buf ≠ [] → buf.length = p.length + slack p) →
    ∀ (buf2 : List Char) (r2 w2 : Nat),
    copyElem p p.length fuel r w buf = (buf2, r2, w2) →
    (r ≤ r2 ∧ r2 ≤ p.length ∧ w2 + r = w + r2 ∧
     (p.length ≤ r2 ∨ p.getD r2 cnul = '/') ∧
     (curOf p buf2 w2).length = w2 ∧
     PairOk (curOf p buf2 w2) ∧
     (curOf p buf2 w2).getD 0 cnul = (curOf p buf w).getD 0 cnul ∧
     (buf2 = [] → buf = []) ∧
     (buf2 ≠ [] → buf2.length = p.length + slack p) ∧
     (r2 = p.length → r < p.length → p.getD (p.length - 1) cnul ≠ '/')) := by
  intro fuel
  induction fuel with
  | zero =>
    intro r w buf hfuel hr hw1 hcap hlen hpair hstart hlazy hbuflen buf2 r2 w2 heq
    rw [copyElem] at heq
    obtain ⟨hb, hrr, hww⟩ : buf = buf2 ∧ r = r2 ∧ w = w2 := by
      have h1 := congrArg Prod.fst heq
      have h2 := congrArg (fun q => q.2.1) heq
      have h3 := congrArg (fun q => q.2.2) heq
      exact ⟨h1, h2, h3⟩
    subst hb; subst hrr; subst hww
    have hnr : p.length ≤ r := by omega
    exact ⟨le_refl r, hr, rfl, Or.inl hnr, hlen, hpair, rfl, fun h => h, hbuflen,
      fun h1 h2 => absurd h1 (by omega)⟩
  | succ f ih =>
    intro r w buf hfuel hr hw1 hcap hlen hpair hstart hlazy hbuflen buf2 r2 w2 heq
    rw [copyElem] at heq
    by_cases hcond : r < p.length ∧ p.getD r cnul ≠ '/'
    · rw [if_pos hcond] at heq
      have hcapW : w < (if buf = [] then p.length else buf.length) := by
        by_cases hb : buf = []
        · rw [if_pos hb]
          have hs : slack p = 0 := by unfold slack; rw [if_pos (hlazy hb)]
          omega
        · rw [if_neg hb, hbuflen hb]
          omega
      obtain ⟨hcur1, hnil1, hlen1⟩ := sp_bufApp_spec buf p w (p.getD r cnul) hcapW
      have hlen2 : (curOf p (bufApp buf p w (p.getD r cnul)) (w + 1)).length = w + 1 := by
        rw [hcur1]
        simp only [List.length_append, List.length_cons, List.length_nil, hlen]
      have hpair2 : PairOk (curOf p (bufApp buf p w (p.getD r cnul)) (w + 1)) := by
        rw [hcur1]
        apply sp_pairOk_append_char _ _ hpair
        rw [hlen]
        intro hsl
        rcases hstart with h | h
        · exact h
        · exact absurd hsl h
      have hstart2 : (curOf p (bufApp buf p w (p.getD r cnul)) (w + 1)).getD (w + 1 - 1) cnul
          ≠ '/' := by
        rw [hcur1]
        have : w + 1 - 1 = w := by omega
        rw [this, sp_getD_append_right cnul _ _ w (by omega)]
        rw [hlen]
        simp only [Nat.sub_self, List.getD_cons_zero]
        exact hcond.2
      have hlazy2 : bufApp buf p w (p.getD r cnul) = [] → p.getD 0 cnul = '/' :=
        fun h => hlazy (hnil1 h)
      have hbuflen2 : bufApp buf p w (p.getD r cnul) ≠ [] →
          (bufApp buf p w (p.getD r cnul)).length = p.length + slack p := by
        intro h
        rw [hlen1 h]
        by_cases hb : buf = []
        · rw [if_pos hb]
          have hs : slack p = 0 := by unfold slack; rw [if_pos (hlazy hb)]
          omega
        · rw [if_neg hb]
          exact hbuflen hb
      have hres := ih (r + 1) (w + 1) (bufApp buf p w (p.getD r cnul))
        (by omega) (by omega) (by omega) (by omega)
        hlen2 hpair2 (Or.inr hstart2) hlazy2 hbuflen2 buf2 r2 w2 heq
      obtain ⟨h1, h2, h3, h4, h5, h6, h7, h8, h9, h10⟩ := hres
      refine ⟨by omega, h2, by omega, h4, h5, h6, ?_, fun h => hnil1 (h8 h), h9, ?_⟩
      · rw [h7, hcur1, sp_getD_append cnul _ _ 0 (by rw [hlen]; omega)]
      · intro hrn hrlt
        by_cases hstep : r + 1 = p.length
        · have : p.length - 1 = r := by omega
          rw [this]
          exact hcond.2
        · exact h10 hrn (by omega)
    · rw [if_neg hcond] at heq
      obtain ⟨hb, hrr, hww⟩ : buf = buf2 ∧ r = r2 ∧ w = w2 := by
        have h1 := congrArg Prod.fst heq
        have h2 := congrArg (fun q => q.2.1) heq
        have h3 := congrArg (fun q => q.2.2) heq
        exact ⟨h1, h2, h3⟩
      subst hb; subst hrr; subst hww
      have hexit : p.length ≤ r ∨ p.getD r cnul = '/' := by
        by_cases h1 : r < p.length
        · right
          by_cases h2 : p.getD r cnul = '/'
          · exact h2
          · exact absurd ⟨h1, h2⟩ hcond
        · left; omega
      exact ⟨le_refl r, hr, rfl, hexit, hlen, hpair, rfl, fun h => h, hbuflen,
        fun h1 h2 => absurd h1 (by omega)⟩

theorem sp_curOf_take (p buf : List Char) (W w : Nat) (hW : W ≤ w) :
    curOf p buf W = (curOf p buf w).take W := by
  unfold curOf
  by_cases hb : buf = []
  · rw [if_pos hb, if_pos hb, List.take_take, Nat.min_eq_left hW]
  · rw [if_neg hb, if_neg hb, List.take_take, Nat.min_eq_left hW]

theorem sp_cleanLoop_inv (p : List Char) :
    ∀ (fuel : Nat), ∀ (r w : Nat) (buf : List Char) (tr : Bool),
    CleanInv p r w buf tr →
    ∀ (buf2 : List Char) (w2 : Nat) (tr2 : Bool),
    cleanLoop p p.length fuel r w buf tr = some (buf2, w2, tr2) →
    CleanOut p w2 buf2 tr2 := by
  intro fuel
  induction fuel with
  | zero =>
    intro r w buf tr hinv buf2 w2 tr2 heq
    rw [cleanLoop] at heq
    exact absurd heq (by simp)
  | succ f ih =>
    intro r w buf tr hinv buf2 w2 tr2 heq
    rw [cleanLoop] at heq
    by_cases hrn : r < p.length
    case neg =>
      rw [if_neg hrn] at heq
      obtain ⟨hb, hw, ht⟩ : buf = buf2 ∧ w = w2 ∧ tr = tr2 := by
        simp only [Option.some.injEq, Prod.mk.injEq] at heq
        exact ⟨heq.1, heq.2.1, heq.2.2⟩
      subst hb; subst hw; subst ht
      exact ⟨hinv.hw1, hinv.hwn, hinv.hlazy, hinv.hbuflen, hinv.hhead, hinv.hpair,
        hinv.hlen, fun h => (hinv.htrail h).1⟩
    case pos =>
      rw [if_pos hrn] at heq
      by_cases hsl : p.getD r cnul = '/'
      · rw [if_pos hsl] at heq
        refine ih (r + 1) w buf tr ?_ buf2 w2 tr2 heq
        refine ⟨hinv.hw1, hinv.hwn, hinv.hlazy, hinv.hbuflen, hinv.hhead, hinv.hpair,
          hinv.hlen, by have := hinv.hbound; omega, by have := hinv.hr1; omega,
          fun h => absurd h (by have := hinv.hbound; omega), ?_⟩
        intro h
        obtain ⟨hA, hB⟩ := hinv.htrail h
        exact ⟨hA, hB.imp (fun x => x) (fun hh => by omega)⟩
      · rw [if_neg hsl] at heq
        by_cases hdot : p.getD r cnul = '.'
        · rw [if_pos hdot] at heq
          by_cases hend : r + 1 = p.length
          · rw [if_pos hend] at heq
            refine ih (r + 1) w buf true ?_ buf2 w2 tr2 heq
            refine ⟨hinv.hw1, hinv.hwn, hinv.hlazy, hinv.hbuflen, hinv.hhead, hinv.hpair,
              hinv.hlen, by have := hinv.hbound; omega, by have := hinv.hr1; omega,
              fun h => absurd h (by have := hinv.hbound; omega), ?_⟩
            intro _
            have := hinv.hbound
            exact ⟨by omega, Or.inr (by omega)⟩
          · rw [if_neg hend] at heq
            by_cases hds : p.getD (r + 1) cnul = '/'
            · rw [if_pos hds] at heq
              refine ih (r + 2) w buf tr ?_ buf2 w2 tr2 heq
              refine ⟨hinv.hw1, hinv.hwn, hinv.hlazy, hinv.hbuflen, hinv.hhead, hinv.hpair,
                hinv.hlen, by have := hinv.hbound; omega, by have := hinv.hr1; omega,
                fun h => absurd h (by have := hinv.hbound; omega), ?_⟩
              intro h
              obtain ⟨hA, hB⟩ := hinv.htrail h
              exact ⟨hA, hB.imp (fun x => x) (fun hh => by omega)⟩
            · rw [if_neg hds] at heq
              by_cases hdd : p.getD (r + 1) cnul = '.' ∧
                  (r + 2 = p.length ∨ p.getD (r + 2) cnul = '/')
              · rw [if_pos hdd] at heq
                have heq2 : cleanLoop p p.length f (r + 3)
                    (if 1 < w then backtrack (if buf = [] then p else buf) (w - 1) else w)
                    buf tr = some (buf2, w2, tr2) := heq
                by_cases h1w : 1 < w
                · rw [if_pos h1w] at heq2
                  have hble := sp_backtrack_le (if buf = [] then p else buf) (w - 1)
                  have hbpos := sp_backtrack_pos (if buf = [] then p else buf) (w - 1)
                    (by omega)
                  have hWle : backtrack (if buf = [] then p else buf) (w - 1) ≤ w := by omega
                  have hcurW := sp_curOf_take p buf
                    (backtrack (if buf = [] then p else buf) (w - 1)) w hWle
                  refine ih (r + 3) (backtrack (if buf = [] then p else buf) (w - 1))
                    buf tr ?_ buf2 w2 tr2 heq2
                  refine ⟨hbpos, by have := hinv.hwn; omega, hinv.hlazy, hinv.hbuflen,
                    ?_, ?_, ?_, by have := hinv.hbound; omega, by have := hinv.hr1; omega,
                    fun h => absurd h (by have := hinv.hbound; omega), ?_⟩
                  · rw [hcurW, sp_getD_take cnul _ _ 0 (by omega)]
                    exact hinv.hhead
                  · rw [hcurW]
                    exact sp_pairOk_take _ _ hinv.hpair
                  · rw [hcurW, List.length_take, hinv.hlen]
                    omega
                  · intro h
                    obtain ⟨hA, hB⟩ := hinv.htrail h
                    exact ⟨by omega, hB.imp (fun x => x) (fun hh => by omega)⟩
                · rw [if_neg h1w] at heq2
                  refine ih (r + 3) w buf tr ?_ buf2 w2 tr2 heq2
                  refine ⟨hinv.hw1, hinv.hwn, hinv.hlazy, hinv.hbuflen, hinv.hhead,
                    hinv.hpair, hinv.hlen, by have := hinv.hbound; omega,
                    by have := hinv.hr1; omega,
                    fun h => absurd h (by have := hinv.hbound; omega), ?_⟩
                  intro h
                  obtain ⟨hA, hB⟩ := hinv.htrail h
                  exact ⟨hA, hB.imp (fun x => x) (fun hh => by omega)⟩
              · rw [if_neg hdd] at heq
                exact ih r w buf tr hinv buf2 w2 tr2 heq
        · -- real path element
          rw [if_neg hdot] at heq
          have heq2 : cleanLoop p p.length f
              (copyElem p p.length (p.length - r) r (if 1 < w then w + 1 else w)
                (if 1 < w then bufApp buf p w '/' else buf)).2.1
              (copyElem p p.length (p.length - r) r (if 1 < w then w + 1 else w)
                (if 1 < w then bufApp buf p w '/' else buf)).2.2
              (copyElem p p.length (p.length - r) r (if 1 < w then w + 1 else w)
                (if 1 < w then bufApp buf p w '/' else buf)).1
              tr = some (buf2, w2, tr2) := heq
          have hwlt : w < r + slack p ∨ (w = 1 ∧ r + slack p = 1) := by
            have hb := hinv.hbound
            rcases Nat.lt_or_ge w (r + slack p) with h | h
            · exact Or.inl h
            · have hwe : w = r + slack p := by omega
              rcases hinv.hboundeq hwe with h1 | h1 | h1
              · omega
              · exact absurd h1 hsl
              · exact Or.inr ⟨h1.1, h1.2⟩
          by_cases h1w : 1 < w
          · simp only [if_pos h1w] at heq2
            have hwltr : w < r + slack p := by
              rcases hwlt with h | h
              · exact h
              · omega
            have hcapW : w < (if buf = [] then p.length else buf.length) := by
              by_cases hb : buf = []
              · rw [if_pos hb]
                have hs : slack p = 0 := by unfold slack; rw [if_pos (hinv.hlazy hb)]
                omega
              · rw [if_neg hb, hinv.hbuflen hb]
                omega
            obtain ⟨hcur1, hnil1, hlen1⟩ := sp_bufApp_spec buf p w '/' hcapW
            obtain ⟨⟨buf3, r3, w3⟩, hres⟩ :
                ∃ q, copyElem p p.length (p.length - r) r (w + 1) (bufApp buf p w '/') = q :=
              ⟨_, rfl⟩
            have hplen2 : (curOf p (bufApp buf p w '/') (w + 1)).length = w + 1 := by
              rw [hcur1]
              simp only [List.length_append, List.length_cons, List.length_nil, hinv.hlen]
            have hppair2 : PairOk (curOf p (bufApp buf p w '/') (w + 1)) := by
              rw [hcur1]
              exact sp_pairOk_append_char _ _ hinv.hpair (fun _ => by decide)
            have hbl2 : bufApp buf p w '/' ≠ [] →
                (bufApp buf p w '/').length = p.length + slack p := by
              intro h
              rw [hlen1 h]
              by_cases hb : buf = []
              · rw [if_pos hb]
                have hs : slack p = 0 := by unfold slack; rw [if_pos (hinv.hlazy hb)]
                omega
              · rw [if_neg hb]
                exact hinv.hbuflen hb
            have hce := sp_copyElem_spec p (p.length - r) r (w + 1) (bufApp buf p w '/')
              (le_refl _) (by omega) (by omega) (by omega)
              hplen2 hppair2 (Or.inl hdot) (fun h => hinv.hlazy (hnil1 h)) hbl2
              buf3 r3 w3 hres
            obtain ⟨h1, h2, h3, h4, h5, h6, h7, h8, h9, h10⟩ := hce
            rw [hres] at heq2
            refine ih r3 w3 buf3 tr ?_ buf2 w2 tr2 heq2
            refine ⟨by omega, by omega, fun h => hinv.hlazy (hnil1 (h8 h)), h9, ?_, h6, h5,
              by omega, by have := hinv.hr1; omega, ?_, ?_⟩
            · rw [h7, hcur1, sp_getD_append cnul _ _ 0 (by rw [hinv.hlen]; omega)]
              exact hinv.hhead
            · intro _
              rcases h4 with h4 | h4
              · exact Or.inl h4
              · exact Or.inr (Or.inl h4)
            · intro h
              obtain ⟨hA, hB⟩ := hinv.htrail h
              have hPn : p.getD (p.length - 1) cnul = '/' := by
                rcases hB with hB | hB
                · exact hB
                · omega
              have hr3lt : r3 < p.length := by
                by_cases hq : r3 = p.length
                · exact absurd hPn (h10 hq hrn)
                · omega
              exact ⟨by omega, Or.inl hPn⟩
          · simp only [if_neg h1w] at heq2
            obtain ⟨⟨buf3, r3, w3⟩, hres⟩ :
                ∃ q, copyElem p p.length (p.length - r) r w buf = q := ⟨_, rfl⟩
            have hce := sp_copyElem_spec p (p.length - r) r w buf
              (le_refl _) (by omega) hinv.hw1
              (by have := hinv.hr1; have hw1 := hinv.hw1; omega)
              hinv.hlen hinv.hpair (Or.inl hdot) hinv.hlazy hinv.hbuflen
              buf3 r3 w3 hres
            obtain ⟨h1, h2, h3, h4, h5, h6, h7, h8, h9, h10⟩ := hce
            rw [hres] at heq2
            refine ih r3 w3 buf3 tr ?_ buf2 w2 tr2 heq2
            have hw1' : w = 1 := by have := hinv.hw1; omega
            refine ⟨by omega, by have := hinv.hr1; omega, fun h => hinv.hlazy (h8 h), h9,
              by rw [h7]; exact hinv.hhead, h6, h5,
              by have := hinv.hr1; omega, by have := hinv.hr1; omega, ?_, ?_⟩
            · intro _
              rcases h4 with h4 | h4
              · exact Or.inl h4
              · exact Or.inr (Or.inl h4)
            · intro h
              obtain ⟨hA, hB⟩ := hinv.htrail h
              have hPn : p.getD (p.length - 1) cnul = '/' := by
                rcases hB with hB | hB
                · exact hB
                · omega
              have hr3lt : r3 < p.length := by
                by_cases hq : r3 = p.length
                · exact absurd hPn (h10 hq hrn)
                · omega
              exact ⟨by have := hinv.hr1; omega, Or.inl hPn⟩

theorem sp_clean_out (p out : List Char) (h : clean p = some out) :
    out ≠ [] ∧ out.getD 0 cnul = '/' ∧ PairOk out := by
  unfold clean cleanWithFuel at h
  by_cases hp : p = []
  · rw [if_pos hp] at h
    have hout : out = ['/'] := by
      simp only [Option.some.injEq] at h
      exact h.symm
    subst hout
    refine ⟨by simp, by simp, ?_⟩
    intro i hi _
    simp only [List.length_cons, List.length_nil] at hi
    omega
  · rw [if_neg hp] at h
    have hplen : 1 ≤ p.length := by
      cases p with
      | nil => exact absurd rfl hp
      | cons a b => simp
    by_cases hroot : p.getD 0 cnul = '/'
    · simp only [if_pos hroot] at h
      have h2 : (match cleanLoop p p.length (p.length + 1) 1 1 []
          (decide (1 < p.length) && decide (p.getD (p.length - 1) cnul = '/')) with
        | none => none
        | some (buf2, w, trailing2) =>
          some (if (if trailing2 = true ∧ 1 < w then bufApp buf2 p w '/' else buf2) = []
            then p.take (if trailing2 = true ∧ 1 < w then w + 1 else w)
            else (if trailing2 = true ∧ 1 < w then bufApp buf2 p w '/' else buf2).take
              (if trailing2 = true ∧ 1 < w then w + 1 else w))) = some out := h
      have hs : slack p = 0 := by unfold slack; rw [if_pos hroot]
      have htk1 : (p.take 1).length = 1 := by
        rw [List.length_take]
        omega
      have hinv : CleanInv p 1 1 []
          (decide (1 < p.length) && decide (p.getD (p.length - 1) cnul = '/')) := by
        refine ⟨le_refl 1, by omega, fun _ => hroot, fun hq => absurd rfl hq, ?_, ?_, ?_,
          by omega, by omega, fun _ => Or.inr (Or.inr ⟨rfl, by omega⟩), ?_⟩
        · show (curOf p [] 1).getD 0 cnul = '/'
          unfold curOf
          rw [if_pos rfl, sp_getD_take cnul p 1 0 (by omega)]
          exact hroot
        · show PairOk (curOf p [] 1)
          unfold curOf
          rw [if_pos rfl]
          intro i hi _
          rw [htk1] at hi
          omega
        · show (curOf p [] 1).length = 1
          unfold curOf
          rw [if_pos rfl]
          exact htk1
        · intro htr
          have hand := htr
          rw [Bool.and_eq_true, decide_eq_true_iff, decide_eq_true_iff] at hand
          exact ⟨by omega, Or.inl hand.2⟩
      rcases hloop : cleanLoop p p.length (p.length + 1) 1 1 []
          (decide (1 < p.length) && decide (p.getD (p.length - 1) cnul = '/')) with
        _ | ⟨buf2, w, tr2⟩
      · rw [hloop] at h2
        simp at h2
      · rw [hloop] at h2
        have hout := sp_cleanLoop_inv p (p.length + 1) 1 1 []
          (decide (1 < p.length) && decide (p.getD (p.length - 1) cnul = '/'))
          hinv buf2 w tr2 hloop
        simp only [Option.some.injEq] at h2
        by_cases hpost : tr2 = true ∧ 1 < w
        · simp only [if_pos hpost] at h2
          have hcap : w < (if buf2 = [] then p.length else buf2.length) := by
            by_cases hb : buf2 = []
            · rw [if_pos hb]
              have := (hout.htrail hpost.1)
              omega
            · rw [if_neg hb, hout.hbuflen hb]
              have := (hout.htrail hpost.1)
              omega
          obtain ⟨hcur3, hnil3, _⟩ := sp_bufApp_spec buf2 p w '/' hcap
          have hform : out = curOf p (bufApp buf2 p w '/') (w + 1) := by
            unfold curOf
            exact h2.symm
          rw [hform, hcur3]
          have hlw := hout.hlen
          have hw1 := hout.hw1
          refine ⟨?_, ?_, ?_⟩
          · intro hnil
            have := congrArg List.length hnil
            simp only [List.length_append, List.length_cons, List.length_nil,
              hlw] at this
            omega
          · rw [sp_getD_append cnul _ _ 0 (by rw [hlw]; omega)]
            exact hout.hhead
          · exact sp_pairOk_append_char _ _ hout.hpair (fun _ => by decide)
        · simp only [if_neg hpost] at h2
          have hform : out = curOf p buf2 w := by
            unfold curOf
            exact h2.symm
          rw [hform]
          have hlw := hout.hlen
          have hw1 := hout.hw1
          refine ⟨?_, hout.hhead, hout.hpair⟩
          intro hnil
          have := congrArg List.length hnil
          rw [hlw] at this
          simp at this
          omega
    · simp only [if_neg hroot] at h
      have h2 : (match cleanLoop p p.length (p.length + 1) 0 1
          ('/' :: List.replicate p.length cnul)
          (decide (1 < p.length) && decide (p.getD (p.length - 1) cnul = '/')) with
        | none => none
        | some (buf2, w, trailing2) =>
          some (if (if trailing2 = true ∧ 1 < w then bufApp buf2 p w '/' else buf2) = []
            then p.take (if trailing2 = true ∧ 1 < w then w + 1 else w)
            else (if trailing2 = true ∧ 1 < w then bufApp buf2 p w '/' else buf2).take
              (if trailing2 = true ∧ 1 < w then w + 1 else w))) = some out := h
      have hs : slack p = 1 := by unfold slack; rw [if_neg hroot]
      have hbuf0 : ('/' :: List.replicate p.length cnul) ≠ [] := by simp
      have hbuf0len : ('/' :: List.replicate p.length cnul).length = p.length + slack p := by
        simp only [List.length_cons, List.length_replicate]
        omega
      have htk1 : (('/' :: List.replicate p.length cnul).take 1) = ['/'] := by
        simp
      have hinv : CleanInv p 0 1 ('/' :: List.replicate p.length cnul)
          (decide (1 < p.length) && decide (p.getD (p.length - 1) cnul = '/')) := by
        refine ⟨le_refl 1, by omega, fun hq => absurd hq hbuf0, fun _ => hbuf0len,
          ?_, ?_, ?_, by omega, by omega,
          fun _ => Or.inr (Or.inr ⟨rfl, by omega⟩), ?_⟩
        · show (curOf p ('/' :: List.replicate p.length cnul) 1).getD 0 cnul = '/'
          unfold curOf
          rw [if_neg hbuf0, htk1]
          rfl
        · show PairOk (curOf p ('/' :: List.replicate p.length cnul) 1)
          unfold curOf
          rw [if_neg hbuf0, htk1]
          intro i hi _
          simp only [List.length_cons, List.length_nil] at hi
          omega
        · show (curOf p ('/' :: List.replicate p.length cnul) 1).length = 1
          unfold curOf
          rw [if_neg hbuf0, htk1]
          rfl
        · intro htr
          have hand := htr
          rw [Bool.and_eq_true, decide_eq_true_iff, decide_eq_true_iff] at hand
          exact ⟨by omega, Or.inl hand.2⟩
      rcases hloop : cleanLoop p p.length (p.length + 1) 0 1
          ('/' :: List.replicate p.length cnul)
          (decide (1 < p.length) && decide (p.getD (p.length - 1) cnul = '/')) with
        _ | ⟨buf2, w, tr2⟩
      · rw [hloop] at h2
        simp at h2
      · rw [hloop] at h2
        have hout := sp_cleanLoop_inv p (p.length + 1) 0 1
          ('/' :: List.replicate p.length cnul)
          (decide (1 < p.length) && decide (p.getD (p.length - 1) cnul = '/'))
          hinv buf2 w tr2 hloop
        simp only [Option.some.injEq] at h2
        by_cases hpost : tr2 = true ∧ 1 < w
        · simp only [if_pos hpost] at h2
          have hcap : w < (if buf2 = [] then p.length else buf2.length) := by
            by_cases hb : buf2 = []
            · rw [if_pos hb]
              have := (hout.htrail hpost.1)
              have hs0 : slack p = 0 := by unfold slack; rw [if_pos (hout.hlazy hb)]
              omega
            · rw [if_neg hb, hout.hbuflen hb]
              have := (hout.htrail hpost.1)
              omega
          obtain ⟨hcur3, hnil3, _⟩ := sp_bufApp_spec buf2 p w '/' hcap
          have hform : out = curOf p (bufApp buf2 p w '/') (w + 1) := by
            unfold curOf
            exact h2.symm
          rw [hform, hcur3]
          have hlw := hout.hlen
          have hw1 := hout.hw1
          refine ⟨?_, ?_, ?_⟩
          · intro hnil
            have := congrArg List.length hnil
            simp only [List.length_append, List.length_cons, List.length_nil,
              hlw] at this
            omega
          · rw [sp_getD_append cnul _ _ 0 (by rw [hlw]; omega)]
            exact hout.hhead
          · exact sp_pairOk_append_char _ _ hout.hpair (fun _ => by decide)
        · simp only [if_neg hpost] at h2
          have hform : out = curOf p buf2 w := by
            unfold curOf
            exact h2.symm
          rw [hform]
          have hlw := hout.hlen
          have hw1 := hout.hw1
          refine ⟨?_, hout.hhead, hout.hpair⟩
          intro hnil
          have := congrArg List.length hnil
          rw [hlw] at this
          simp at this
          omega

/-- C6: every value fn clean returns is a rooted path with no dot-dot
segment: the dot-dot element of the input always backtracks (or is absorbed
at the root) and every copied segment starts with a character other than
the dot, so splitting the output at slashes never yields the dot-dot
segment and the result never denotes anything above the root. -/
theorem c6_clean_no_dotdot_segment (p out : List Char) (h : clean p = some out) :
    ['.', '.'] ∉ splitSlash out := by
  obtain ⟨hne, hhead, hpair⟩ := sp_clean_out p out h
  exact sp_no_dotdot_segment out hhead hpair

/-- Witness for C6: clean of /a/../../b returns /b (excess dot-dot absorbed
at the root), and the theorem applies to it. -/
theorem c6_clean_no_dotdot_segment_witness :
    ['.', '.'] ∉ splitSlash ("/b".data) :=
  c6_clean_no_dotdot_segment ("/a/../../b".data) ("/b".data) (by decide)

/-- C7: every value fn clean returns is non-empty and starts with a slash;
but the claim's universal form fails on the code, because on a path with a
segment that begins with a dot and is neither the dot nor the dot-dot
element (such as /.x) clean never returns at all, and so produces no
string whatsoever (the minimum output of every terminating run is the
root). -/
theorem c7_root_invariant_of_outputs_and_divergence :
    clean ("/.x".data) = none ∧
    (∀ (p out : List Char), clean p = some out →
      out ≠ [] ∧ out.getD 0 cnul = '/') := by
  refine ⟨by decide, ?_⟩
  intro p out h
  obtain ⟨hne, hhead, _⟩ := sp_clean_out p out h
  exact ⟨hne, hhead⟩

end HttpRouter
